import Mathlib

/-!
Shallow embedding of the core logic of the raycast-store-updates extension
(file src/utils/index.ts and the useGitHubRateLimit hook).

Modelling conventions:
* JavaScript strings are Lean strings; the regular expressions of the source
  are translated into explicit character-level functions.  The JS whitespace
  class is modelled by its ASCII subset, which covers every input the
  heuristics are applied to (pull-request titles, labels, file paths).
* Date strings (ISO timestamps handled via new Date(x).getTime()) are
  modelled by their epoch-millisecond value as an Int.
* Network calls are modelled by oracles: convertPRsToStoreItems receives the
  (already settled) results of fetchExtensionSlugFromPRFiles,
  fetchExtensionPackageInfo and fetchRemovedSlugsFromPR as functions; the
  fan-out/fan-in concurrency of the source preserves original record order
  (spec section 5), so the sequential model below is the intended semantics.
* A thrown-and-caught exception or a non-ok HTTP response is modelled by the
  FetchOutcome constructors notOk / transportError / parseError.
-/

set_option maxHeartbeats 1000000

namespace StoreUpdates

/-- ASCII subset of the JS regex class \s (whitespace). -/
def isJsWs (c : Char) : Bool :=
  c == ' ' || c == '\t' || c == '\n' || c == '\r' || c == '\x0b' || c == '\x0c'

/-- JS regex class \w (word characters) restricted to ASCII: [A-Za-z0-9_]. -/
def isWordChar (c : Char) : Bool :=
  c.isAlphanum || c == '_'

def lowerChars (l : List Char) : List Char := l.map Char.toLower

/-- JS String.prototype.trim on the character list. -/
def jsTrimChars (l : List Char) : List Char :=
  ((l.dropWhile isJsWs).reverse.dropWhile isJsWs).reverse

/-- JS String.prototype.trim. -/
def jsTrim (s : String) : String := ⟨jsTrimChars s.data⟩

/-- JS s.replace of every maximal whitespace run by a single hyphen.
The Boolean flag records whether the previous character belonged to a run. -/
def collapseWsChars : List Char → Bool → List Char
  | [], _ => []
  | c :: rest, prevWs =>
    if isJsWs c then
      if prevWs then collapseWsChars rest true
      else '-' :: collapseWsChars rest true
    else c :: collapseWsChars rest false

/-- The normalisation chain applied to every extracted name in the source:
trim, toLowerCase, replace whitespace runs by hyphens. -/
def normalizeSlug (s : String) : String :=
  ⟨collapseWsChars (lowerChars (jsTrimChars s.data)) false⟩

/-- JS String.prototype.split with a one-character separator, on character
lists (split of the empty string is one empty field, as in JS). -/
def splitOnChar (sep : Char) : List Char → List (List Char)
  | [] => [[]]
  | c :: rest =>
    if c == sep then [] :: splitOnChar sep rest
    else
      match splitOnChar sep rest with
      | [] => [[c]]
      | l :: ls => (c :: l) :: ls

def splitChar (sep : Char) (s : String) : List String :=
  (splitOnChar sep s.data).map (fun l => ⟨l⟩)

/-- JS Array.prototype.join with a separator string. -/
def joinWith (sep : String) : List String → String
  | [] => ""
  | [x] => x
  | x :: xs => x ++ sep ++ joinWith sep xs

/-- JS String.prototype.startsWith. -/
def strStartsWith (s pre : String) : Bool := pre.data.isPrefixOf s.data

/-! ## Data model (GitHub payload shapes, src/types) -/

structure GitHubUser where
  login : String
  html_url : String
  avatar_url : String
deriving DecidableEq, Repr

structure PRLabel where
  name : String
deriving DecidableEq, Repr

structure GitHubPR where
  number : Nat
  title : String
  html_url : String
  merged_at : Option Int
  user : GitHubUser
  labels : List PRLabel
deriving DecidableEq, Repr

structure GitHubPRFile where
  filename : String
  status : String
deriving DecidableEq, Repr

inductive StoreItemType where
  | new
  | updated
  | removed
deriving DecidableEq, Repr

/-- The unified item emitted by the classifier.  The TS interface marks the
tail fields optional; both emitters modelled here always supply
extensionSlug and prUrl, so they are plain strings. -/
structure StoreItem where
  id : String
  title : String
  summary : String
  image : String
  date : Int
  authorName : String
  authorUrl : String
  url : String
  type : StoreItemType
  extensionSlug : String
  prUrl : String
  platforms : Option (List String)
  version : Option String
  categories : Option (List String)
  extensionIcon : Option String
deriving DecidableEq, Repr

/-! ## Slug resolution from titles and labels (parseExtensionSlugFromPR) -/

/-- One label against the regex extension colon-space pattern
(source: label.name.match of extension label, case-insensitive, anchored at
both ends, capture group normalised).  The dot of the capture group does
not cross line terminators, and the greedy whitespace run backtracks: on
whitespace-only content the group captures the final whitespace character
(provided it is not a line terminator), so such labels yield the empty
slug after normalisation rather than no match. -/
def labelSlugOf (name : String) : Option String :=
  let l := name.data
  if lowerChars (l.take 10) = "extension:".data then
    let rest := l.drop 10
    let content := rest.dropWhile isJsWs
    if !content.isEmpty then
      if content.all (fun c => !(c == '\n' || c == '\r')) then
        some (normalizeSlug ⟨content⟩)
      else none
    else
      match rest.reverse with
      | [] => none
      | c :: _ =>
        if !(c == '\n' || c == '\r') then some (normalizeSlug ⟨[c]⟩) else none
  else none

def labelSlug (labels : List PRLabel) : Option String :=
  labels.findSome? (fun lb => labelSlugOf lb.name)

/-- The capture group of the title pattern: everything before the first
colon, provided it is nonempty and the colon is followed by whitespace. -/
def colonName (title : String) : Option String :=
  let l := title.data
  let pre := l.takeWhile (fun c => c != ':')
  match l.dropWhile (fun c => c != ':') with
  | ':' :: c :: _ => if !pre.isEmpty && isJsWs c then some ⟨pre⟩ else none
  | _ => none

def conventionalVerbs : List String :=
  ["fix", "feat", "chore", "docs", "ci", "build", "refactor", "test",
   "style", "perf", "revert", "bump", "update", "add", "remove", "merge"]

/-- The source rejection test on the colon-prefix name: a case-insensitive
regex anchored only at the start, so it fires whenever the name merely
BEGINS with one of the conventional-commit verbs. -/
def startsWithVerb (name : String) : Bool :=
  conventionalVerbs.any (fun v => v.data.isPrefixOf (lowerChars name.data))

/-- The bracket pattern: title starts with an opening square bracket, the
capture group is the nonempty run up to the closing bracket. -/
def bracketName (title : String) : Option String :=
  match title.data with
  | '[' :: rest =>
    let inner := rest.takeWhile (fun c => c != ']')
    if !inner.isEmpty && !(rest.dropWhile (fun c => c != ']')).isEmpty then
      some (normalizeSlug ⟨inner⟩)
    else none
  | _ => none

/-- parseExtensionSlugFromPR: labels first, then the colon-prefix heuristic
(rejected when the trimmed name starts with a conventional-commit verb),
then the bracket pattern, else null. -/
def parseExtensionSlugFromPR (pr : GitHubPR) : Option String :=
  match labelSlug pr.labels with
  | some s => some s
  | none =>
    match colonName pr.title with
    | some raw =>
      if startsWithVerb (jsTrim raw) then bracketName pr.title
      else some (normalizeSlug raw)
    | none => bracketName pr.title

/-- The title test of isRemovalPR: case-insensitive match of remove with an
optional d, anchored at the start and followed by a word boundary. -/
def removalTitle (title : String) : Bool :=
  let l := lowerChars title.data
  if ("remove".data).isPrefixOf l then
    match l.drop 6 with
    | [] => true
    | 'd' :: [] => true
    | 'd' :: c :: _ => !isWordChar c
    | c :: _ => !isWordChar c
  else false

def isRemovalPR (pr : GitHubPR) : Bool :=
  pr.labels.any (fun l => l.name == "no-review") || removalTitle pr.title

/-- JS truthiness of a string-or-null slug: non-null and nonempty.  The
classifier tests resolved slugs this way, so an empty-string slug counts
as unresolved. -/
def slugTruthy : Option String → Bool
  | some s => s != ""
  | none => false

/-! ## File-path based slug extraction -/

/-- The path pattern: extensions/ then a nonempty first segment followed by
a slash; the segment is returned unnormalised. -/
def pathSlug (filename : String) : Option String :=
  let l := filename.data
  if ("extensions/".data).isPrefixOf l then
    let rest := l.drop 11
    let seg := rest.takeWhile (fun c => c != '/')
    if !seg.isEmpty && !(rest.dropWhile (fun c => c != '/')).isEmpty then
      some ⟨seg⟩
    else none
  else none

/-- Insertion-ordered counting map (the JS Map of slug counts). -/
def bumpCount (slug : String) : List (String × Nat) → List (String × Nat)
  | [] => [(slug, 1)]
  | (u, n) :: rest =>
    if u = slug then (u, n + 1) :: rest else (u, n) :: bumpCount slug rest

def slugCounts (files : List GitHubPRFile) : List (String × Nat) :=
  files.foldl (fun acc f =>
    match pathSlug f.filename with
    | some slug => bumpCount slug acc
    | none => acc) []

/-- The most common slug: first entry (in insertion order) whose count is
strictly larger than every earlier one; the empty-string sentinel maps to
null exactly as bestSlug-or-null does in the source. -/
def mostCommonSlug (files : List GitHubPRFile) : Option String :=
  let counts := slugCounts files
  if counts.isEmpty then none
  else
    let best := counts.foldl (fun b p => if p.2 > b.2 then p else b) ("", 0)
    if best.1 = "" then none else some best.1

/-- Insertion-ordered grouping map (the JS Map of slug to file list). -/
def addToGroup (slug : String) (f : GitHubPRFile) :
    List (String × List GitHubPRFile) → List (String × List GitHubPRFile)
  | [] => [(slug, [f])]
  | (u, fs) :: rest =>
    if u = slug then (u, fs ++ [f]) :: rest else (u, fs) :: addToGroup slug f rest

def groupStep (acc : List (String × List GitHubPRFile)) (f : GitHubPRFile) :
    List (String × List GitHubPRFile) :=
  match pathSlug f.filename with
  | some slug => addToGroup slug f acc
  | none => acc

def groupFilesBySlug (files : List GitHubPRFile) : List (String × List GitHubPRFile) :=
  files.foldl groupStep []

/-- A slug is removed when its group is nonempty and every file in it has
status removed. -/
def removedSlugsFromFiles (files : List GitHubPRFile) : List String :=
  (groupFilesBySlug files).filterMap (fun g =>
    if g.2 ≠ [] ∧ ∀ f ∈ g.2, f.status = "removed" then some g.1 else none)

/-! ## Network wrappers -/

/-- Result of one fetch call as seen after the try/catch of the source:
ok carries the parsed JSON body; notOk is a non-success response (early
return); transportError and parseError are the exceptions swallowed by the
catch block. -/
inductive FetchOutcome (α : Type) where
  | ok (value : α)
  | notOk
  | transportError
  | parseError
deriving DecidableEq, Repr

def fetchExtensionSlugFromPRFiles (resp : FetchOutcome (List GitHubPRFile)) : Option String :=
  match resp with
  | .ok files => mostCommonSlug files
  | .notOk => none
  | .transportError => none
  | .parseError => none

def fetchRemovedSlugsFromPR (resp : FetchOutcome (List GitHubPRFile)) : List String :=
  match resp with
  | .ok files => removedSlugsFromFiles files
  | .notOk => []
  | .transportError => []
  | .parseError => []

/-! ## Package metadata (fetchExtensionPackageInfo) -/

structure PackageJson where
  owner : Option String
  title : Option String
  name : Option String
  author : Option String
  description : Option String
  platforms : Option (List String)
  version : Option String
  categories : Option (List String)
  icon : Option String
deriving DecidableEq, Repr

structure PackageInfo where
  owner : String
  title : String
  name : String
  description : String
  platforms : List String
  version : String
  categories : List String
  icon : String
deriving DecidableEq, Repr

/-- The fallback chains of fetchExtensionPackageInfo.  The typeof-string
check on categories is vacuous in the typed model; the trim-nonempty filter
is kept. -/
def resolvePackageInfo (slug : String) (pkg : PackageJson) : PackageInfo :=
  { owner := pkg.owner.getD (pkg.author.getD slug)
    title := pkg.title.getD (pkg.name.getD slug)
    name := pkg.name.getD slug
    description := pkg.description.getD ""
    platforms := pkg.platforms.getD ["macOS"]
    version := pkg.version.getD ""
    categories := (pkg.categories.getD []).filter (fun c => !(jsTrim c).isEmpty)
    icon := pkg.icon.getD "" }

def fetchExtensionPackageInfo (slug : String) (resp : FetchOutcome PackageJson) :
    Option PackageInfo :=
  match resp with
  | .ok pkg => some (resolvePackageInfo slug pkg)
  | .notOk => none
  | .transportError => none
  | .parseError => none

/-! ## Changelog excerptor (extractLatestChanges) -/

/-- The accumulation loop of extractLatestChanges: the flag records whether
the first heading has been seen; a second heading stops the loop. -/
def collectLatest : List String → Bool → List String
  | [], _ => []
  | line :: rest, started =>
    if strStartsWith line "## " then
      if started then []
      else line :: collectLatest rest true
    else
      if started then line :: collectLatest rest true
      else collectLatest rest false

def extractLatestChanges (changelog : String) : String :=
  jsTrim (joinWith "\n" (collectLatest (splitChar '\n' changelog) false))

/-- The specification wording of section 4.6: find the first line starting
with the heading marker, accumulate lines up to but not including the next
such line, trim; empty string when no heading exists.  Written from the
spec to compare with extractLatestChanges. -/
def specLatestSection (doc : String) : String :=
  match (splitChar '\n' doc).dropWhile (fun l => !(strStartsWith l "## ")) with
  | [] => ""
  | h :: rest =>
    jsTrim (joinWith "\n" (h :: rest.takeWhile (fun l => !(strStartsWith l "## "))))

/-! ## Refresh gate (useGitHubRateLimit) -/

def MIN_REFRESH_INTERVAL_MS : Int := 5 * 60 * 1000

/-- The two persisted keys of the refresh gate; absent keys are none. -/
structure RefreshState where
  lastFetch : Option Int
  rateLimitReset : Option Int
deriving DecidableEq, Repr

/-- Math.ceil (a / b) for an integer a and positive integer b. -/
def jsCeilDiv (a b : Int) : Int := -((-a).ediv b)

def formatTimeRemaining (ms : Int) : String :=
  let totalSeconds := jsCeilDiv ms 1000
  if totalSeconds < 60 then
    "Try again in " ++ toString totalSeconds ++ " second"
      ++ (if totalSeconds ≠ 1 then "s" else "")
  else
    let minutes := jsCeilDiv totalSeconds 60
    "Try again in " ++ toString minutes ++ " minute"
      ++ (if minutes ≠ 1 then "s" else "")

/-- checkRefreshAllowed over the persisted state and the current clock.
The truthiness tests of the source are kept: a stored reset value of zero is
falsy, and the interval check requires a positive recorded fetch time. -/
def checkRefreshAllowed (st : RefreshState) (now : Int) : Option String :=
  let lastFetchTime := st.lastFetch.getD 0
  let intervalMsg : Option String :=
    if lastFetchTime > 0 ∧ now - lastFetchTime < MIN_REFRESH_INTERVAL_MS then
      some (formatTimeRemaining (MIN_REFRESH_INTERVAL_MS - (now - lastFetchTime)))
    else none
  match st.rateLimitReset with
  | some r => if r ≠ 0 ∧ now < r then some (formatTimeRemaining (r - now)) else intervalMsg
  | none => intervalMsg

/-- The storage transformer induced by checkRefreshAllowed: the source only
reads the two keys (getItem), never writes, so the persisted state is
returned unchanged. -/
def checkRefreshAllowedST (st : RefreshState) (now : Int) : Option String × RefreshState :=
  (checkRefreshAllowed st now, st)

/-! ## The change classifier (convertPRsToStoreItems) -/

/-- The feed-date skip condition: the slug is in the new-items map and the
merge time is not after the feed publish date. -/
def feedSkips (newD : String → Option Int) (slug : String) (t : Int) : Bool :=
  match newD slug with
  | some d => decide (t ≤ d)
  | none => false

/-- State after the first (title) pass: the three accumulators and the seen
set of claimed slugs (carried into the file-fallback pass). -/
structure Pass1Out where
  updateCandidates : List (GitHubPR × String)
  removalCandidatePRs : List GitHubPR
  needsFileFallback : List GitHubPR
  seen : List String
deriving Repr

/-- First pass of convertPRsToStoreItems: drop un-merged records, divert
removal candidates, resolve slugs from titles, apply the feed-date skip, and
deduplicate against seen; records whose slug is falsy (null or the empty
string, the if-slug truthiness test of the source) queue for the file
fallback. -/
def pass1 (newD : String → Option Int) : List GitHubPR → List String → Pass1Out
  | [], seen => ⟨[], [], [], seen⟩
  | pr :: rest, seen =>
    match pr.merged_at with
    | none => pass1 newD rest seen
    | some t =>
      if isRemovalPR pr then
        let o := pass1 newD rest seen
        { o with removalCandidatePRs := pr :: o.removalCandidatePRs }
      else
        match parseExtensionSlugFromPR pr with
        | some slug =>
          if slug = "" then
            let o := pass1 newD rest seen
            { o with needsFileFallback := pr :: o.needsFileFallback }
          else if feedSkips newD slug t then pass1 newD rest seen
          else if slug ∈ seen then pass1 newD rest seen
          else
            let o := pass1 newD rest (slug :: seen)
            { o with updateCandidates := (pr, slug) :: o.updateCandidates }
        | none =>
          let o := pass1 newD rest seen
          { o with needsFileFallback := pr :: o.needsFileFallback }

/-- Second pass over the fallback queue: slugs come from the settled
file-list fetches (the oracle); the falsy check of the source skips both a
null and an empty-string slug, then the same feed-date and seen checks
apply; the non-null assertion on merged_at is modelled by getD 0, which is
also the value new Date(null) yields. -/
def pass2 (newD : String → Option Int) (fileSlugOf : Nat → Option String) :
    List GitHubPR → List String → List (GitHubPR × String)
  | [], _ => []
  | pr :: rest, seen =>
    match fileSlugOf pr.number with
    | none => pass2 newD fileSlugOf rest seen
    | some slug =>
      if slug = "" then pass2 newD fileSlugOf rest seen
      else if feedSkips newD slug (pr.merged_at.getD 0) then pass2 newD fileSlugOf rest seen
      else if slug ∈ seen then pass2 newD fileSlugOf rest seen
      else (pr, slug) :: pass2 newD fileSlugOf rest (slug :: seen)

def RAW_CONTENT_BASE : String :=
  "https://raw.githubusercontent.com/raycast/extensions/main/extensions"

def getExtensionIconUrl (slug iconFilename : String) : String :=
  if iconFilename = "" then ""
  else RAW_CONTENT_BASE ++ "/" ++ slug ++ "/"
    ++ (if strStartsWith iconFilename "assets/" then iconFilename else "assets/" ++ iconFilename)

def capitalizeWord (w : String) : String :=
  match w.data with
  | [] => ""
  | c :: cs => ⟨c.toUpper :: cs⟩

/-- Slug-derived display title: split on hyphens, capitalize each word,
join with spaces. -/
def titleFromSlug (slug : String) : String :=
  joinWith " " ((splitChar '-' slug).map capitalizeWord)

/-- Build one Updated item from a surviving (record, slug) pair, with the
metadata fallbacks of the source. -/
def buildUpdatedItem (pkgInfoOf : String → Option PackageInfo) (c : GitHubPR × String) :
    StoreItem :=
  let pr := c.1
  let slug := c.2
  let pkgInfo := pkgInfoOf slug
  let owner := (pkgInfo.map PackageInfo.owner).getD pr.user.login
  let title := (pkgInfo.map PackageInfo.title).getD (titleFromSlug slug)
  let description := (pkgInfo.map PackageInfo.description).getD pr.title
  let iconUrl :=
    match pkgInfo with
    | some p => if p.icon ≠ "" then getExtensionIconUrl slug p.icon else ""
    | none => ""
  { id := "pr-" ++ toString pr.number
    title := title
    summary := description
    image := if iconUrl ≠ "" then iconUrl else pr.user.avatar_url
    date := pr.merged_at.getD 0
    authorName := pr.user.login
    authorUrl := pr.user.html_url
    url := "https://www.raycast.com/" ++ owner ++ "/" ++ slug
    type := StoreItemType.updated
    extensionSlug := slug
    prUrl := pr.html_url
    platforms := some ((pkgInfo.map PackageInfo.platforms).getD ["macOS"])
    version := pkgInfo.map PackageInfo.version
    categories := pkgInfo.map PackageInfo.categories
    extensionIcon := pkgInfo.map PackageInfo.icon }

/-- Build one Removed item for a confirmed slug of a removal record. -/
def buildRemovedItem (pr : GitHubPR) (slug : String) : StoreItem :=
  { id := "pr-" ++ toString pr.number ++ "-removed-" ++ slug
    title := titleFromSlug slug
    summary := "This extension has been removed from the Raycast Store."
    image := pr.user.avatar_url
    date := pr.merged_at.getD 0
    authorName := pr.user.login
    authorUrl := pr.user.html_url
    url := pr.html_url
    type := StoreItemType.removed
    extensionSlug := slug
    prUrl := pr.html_url
    platforms := some ["macOS"]
    version := none
    categories := none
    extensionIcon := none }

/-- Removal confirmation for the slugs of one removal record: skip slugs
already seen, discard slugs whose metadata lookup succeeds, emit and claim
the rest.  Returns the emitted items and the grown seen set. -/
def processRemovalSlugs (pkgInfoOf : String → Option PackageInfo) (pr : GitHubPR) :
    List String → List String → List StoreItem × List String
  | [], seen => ([], seen)
  | slug :: rest, seen =>
    if slug ∈ seen then processRemovalSlugs pkgInfoOf pr rest seen
    else
      match pkgInfoOf slug with
      | some _ => processRemovalSlugs pkgInfoOf pr rest seen
      | none =>
        let out := processRemovalSlugs pkgInfoOf pr rest (slug :: seen)
        (buildRemovedItem pr slug :: out.1, out.2)

/-- Removal processing over all removal candidates, threading the shared
removedSeen set and flattening the per-record item lists.  This is the
SERIALIZED schedule: each record-task runs to completion before the next
starts.  The source launches the record-tasks concurrently and shares the
removedSeen set between them with the has-check placed before an await and
the add after it, so overlapping schedules behave differently; arbitrary
schedules are modelled below by remStep and runRemovalSchedule. -/
def processRemovals (pkgInfoOf : String → Option PackageInfo)
    (removedSlugsOf : Nat → List String) :
    List GitHubPR → List String → List StoreItem
  | [], _ => []
  | pr :: rest, seen =>
    let out := processRemovalSlugs pkgInfoOf pr (removedSlugsOf pr.number) seen
    out.1 ++ processRemovals pkgInfoOf removedSlugsOf rest out.2

/-! ## Event-loop model of the concurrent removal phase

The source processes removal candidates inside Promise.all: the per-record
closures run concurrently and mutate the shared removedSeen set.  Between
two awaits a closure runs synchronously, so the atomic scheduling quantum
is: resume at the pending point, synchronously skip slugs already seen,
and either suspend at the next package-info await (the seen check for that
slug having already happened) or finish.  On resumption from the await the
closure adds the slug and pushes the item (if metadata was null) without
re-checking the seen set. -/

/-- A removal record-task between two awaits: pending means its removed
slug list has settled and the loop is about to run; fetching means it
passed the seen check for slug and awaits the package-info response. -/
inductive RemTaskState where
  | pending (slugs : List String)
  | fetching (slug : String) (rest : List String)
  | finished
deriving DecidableEq, Repr

/-- The synchronous skip over already-seen slugs of the candidate loop,
stopping at the first slug whose package-info fetch must be awaited. -/
def skipSeen (seen : List String) : List String → Option (String × List String)
  | [] => none
  | s :: rest => if s ∈ seen then skipSeen seen rest else some (s, rest)

/-- Shared state of the removal phase: one task per removal record with
its emitted items, and the shared removedSeen set. -/
structure RemExec where
  tasks : List (GitHubPR × RemTaskState × List StoreItem)
  seen : List String
deriving Repr

/-- Run one task synchronously from a loop position to its next await or
to completion. -/
def resumeLoop (seen : List String) (pr : GitHubPR) (items : List StoreItem)
    (slugs : List String) : GitHubPR × RemTaskState × List StoreItem :=
  match skipSeen seen slugs with
  | none => (pr, RemTaskState.finished, items)
  | some (s, rest) => (pr, RemTaskState.fetching s rest, items)

/-- One scheduling quantum granted to task i: advance it from its current
resumption point to its next await (or completion).  A resumption from the
package-info await adds the slug and emits the item when the lookup was
null — the seen check for that slug happened before the await, exactly as
in the source. -/
def remStep (pkgInfoOf : String → Option PackageInfo) (ex : RemExec) (i : Nat) : RemExec :=
  match ex.tasks.get? i with
  | none => ex
  | some (pr, st, items) =>
    match st with
    | RemTaskState.finished => ex
    | RemTaskState.pending slugs =>
      { ex with tasks := ex.tasks.set i (resumeLoop ex.seen pr items slugs) }
    | RemTaskState.fetching s rest =>
      match pkgInfoOf s with
      | some _ => { ex with tasks := ex.tasks.set i (resumeLoop ex.seen pr items rest) }
      | none =>
        let seen2 := s :: ex.seen
        { tasks := ex.tasks.set i
            (resumeLoop seen2 pr (items ++ [buildRemovedItem pr s]) rest)
          seen := seen2 }

/-- The removal phase under an arbitrary event-loop schedule (a list of
task indices); the per-task item lists are flattened in task order, as
removalResults.flat does. -/
def runRemovalSchedule (pkgInfoOf : String → Option PackageInfo)
    (removedSlugsOf : Nat → List String) (prs : List GitHubPR)
    (sched : List Nat) : List StoreItem :=
  let init : RemExec :=
    ⟨prs.map (fun pr => (pr, RemTaskState.pending (removedSlugsOf pr.number), [])), []⟩
  ((sched.foldl (remStep pkgInfoOf) init).tasks.map (fun t => t.2.2)).flatten

/-- The surviving (record, slug) pairs of convertPRsToStoreItems, in the
order the Updated items are emitted. -/
def updateCandidatesOf (newD : String → Option Int) (fileSlugOf : Nat → Option String)
    (prs : List GitHubPR) : List (GitHubPR × String) :=
  let o := pass1 newD prs []
  o.updateCandidates ++ pass2 newD fileSlugOf o.needsFileFallback o.seen

/-- convertPRsToStoreItems with the three network calls supplied as settled
oracles: fileSlugOf for fetchExtensionSlugFromPRFiles, pkgInfoOf for
fetchExtensionPackageInfo, removedSlugsOf for fetchRemovedSlugsFromPR. -/
def convertPRsToStoreItems (fileSlugOf : Nat → Option String)
    (pkgInfoOf : String → Option PackageInfo) (removedSlugsOf : Nat → List String)
    (prs : List GitHubPR) (newItemDates : String → Option Int) :
    List StoreItem × List StoreItem :=
  let o := pass1 newItemDates prs []
  ((o.updateCandidates ++ pass2 newItemDates fileSlugOf o.needsFileFallback o.seen).map
      (buildUpdatedItem pkgInfoOf),
   processRemovals pkgInfoOf removedSlugsOf o.removalCandidatePRs [])

/-! ## Processing-order view of the classifier, used to state and prove the
deduplication claims -/

/-- The contribution of one record to the title pass, when it survives every
filter of that pass except the seen check; a falsy (empty) slug is not
title-eligible. -/
def titleStep (newD : String → Option Int) (pr : GitHubPR) : Option (GitHubPR × String) :=
  match pr.merged_at with
  | none => none
  | some t =>
    if isRemovalPR pr then none
    else
      match parseExtensionSlugFromPR pr with
      | some slug =>
        if slug = "" then none
        else if feedSkips newD slug t then none else some (pr, slug)
      | none => none

def titleEligible (newD : String → Option Int) (prs : List GitHubPR) :
    List (GitHubPR × String) :=
  prs.filterMap (titleStep newD)

/-- The records queued for the file fallback: merged, not removal
candidates, title resolution falsy (null or the empty string). -/
def fallbackQueue (prs : List GitHubPR) : List GitHubPR :=
  prs.filter (fun pr =>
    pr.merged_at.isSome && !isRemovalPR pr
      && !slugTruthy (parseExtensionSlugFromPR pr))

/-- The contribution of one queued record to the fallback pass, when it
survives every filter of that pass except the seen check; a falsy (empty)
oracle slug is skipped. -/
def fallbackStep (newD : String → Option Int) (fileSlugOf : Nat → Option String)
    (pr : GitHubPR) : Option (GitHubPR × String) :=
  match fileSlugOf pr.number with
  | none => none
  | some slug =>
    if slug = "" then none
    else if feedSkips newD slug (pr.merged_at.getD 0) then none else some (pr, slug)

def fallbackEligible (newD : String → Option Int) (fileSlugOf : Nat → Option String)
    (prs : List GitHubPR) : List (GitHubPR × String) :=
  prs.filterMap (fallbackStep newD fileSlugOf)

/-- All (record, slug) pairs that reach the seen check, in processing order:
the whole title pass precedes the whole fallback pass. -/
def eligiblePairs (newD : String → Option Int) (fileSlugOf : Nat → Option String)
    (prs : List GitHubPR) : List (GitHubPR × String) :=
  titleEligible newD prs ++ fallbackEligible newD fileSlugOf (fallbackQueue prs)

/-- First-wins deduplication by slug against a seen set. -/
def dedupBySlug : List String → List (GitHubPR × String) → List (GitHubPR × String)
  | _, [] => []
  | seen, p :: rest =>
    if p.2 ∈ seen then dedupBySlug seen rest
    else p :: dedupBySlug (p.2 :: seen) rest

/-- The files of a list whose path slug is a given slug (the contents of
that slug's group). -/
def matchingFiles (s : String) (files : List GitHubPRFile) : List GitHubPRFile :=
  files.filter (fun f => decide (pathSlug f.filename = some s))

/-- Lookup in the insertion-ordered grouping map. -/
def findGroup (s : String) : List (String × List GitHubPRFile) → Option (List GitHubPRFile)
  | [] => none
  | (u, fs) :: rest => if u = s then some fs else findGroup s rest

/-- Extension of an optional group by further files: absent stays absent
only when nothing is added. -/
def optExtend (o : Option (List GitHubPRFile)) (l : List GitHubPRFile) :
    Option (List GitHubPRFile) :=
  match o, l with
  | none, [] => none
  | o, l => some (o.getD [] ++ l)

/-! ## Concrete instances used in closed statements -/

def cUser : GitHubUser :=
  ⟨"alice", "https://github.com/alice", "https://avatars.example/alice.png"⟩

def noPkg : String → Option PackageInfo := fun _ => none

def noRemoved : Nat → List String := fun _ => []

def noFeed : String → Option Int := fun _ => none

def noFileSlug : Nat → Option String := fun _ => none

/-- Feed map placing slug x at publish date 150. -/
def feedX150 : String → Option Int := fun s => if s = "x" then some 150 else none

def c1FallbackPR : GitHubPR :=
  ⟨1, "update stuff", "https://example.com/pull/1", some 100, cUser, []⟩

def c1TitlePR : GitHubPR :=
  ⟨2, "x: fix stuff", "https://example.com/pull/2", some 200, cUser, []⟩

def c1FileSlugOf : Nat → Option String := fun n => if n = 1 then some "x" else none

def c3PR : GitHubPR :=
  ⟨3, "x: fix stuff", "https://example.com/pull/3", some 100, cUser, []⟩

def c10Early : GitHubPR :=
  ⟨4, "x: old change", "https://example.com/pull/4", some 100, cUser, []⟩

def c10Late : GitHubPR :=
  ⟨5, "x: new change", "https://example.com/pull/5", some 200, cUser, []⟩

def c4RemovalPR : GitHubPR :=
  ⟨9, "Housekeeping", "https://example.com/pull/9", some 50, cUser, [⟨"no-review"⟩]⟩

def c4PkgInfo : PackageInfo :=
  ⟨"acme", "Present Ext", "present-ext", "still here", ["macOS"], "1.0", [], ""⟩

def c4Pkg : String → Option PackageInfo :=
  fun s => if s = "present-ext" then some c4PkgInfo else none

def c4Removed : Nat → List String :=
  fun n => if n = 9 then ["gone-ext", "present-ext"] else []

def c5File : GitHubPRFile := ⟨"extensions/foo/package.json", "modified"⟩

def c2RemovalPR1 : GitHubPR :=
  ⟨11, "Removed x extension", "https://example.com/pull/11", some 10, cUser,
    [⟨"no-review"⟩]⟩

def c2RemovalPR2 : GitHubPR :=
  ⟨12, "Removed x extension again", "https://example.com/pull/12", some 20, cUser,
    [⟨"no-review"⟩]⟩

/-- Both removal records fully delete the directory of slug x. -/
def c2Removed : Nat → List String :=
  fun n => if n = 11 ∨ n = 12 then ["x"] else []

def c6PR : GitHubPR :=
  ⟨6, "Testflight: sync builds", "https://example.com/pull/6", some 5, cUser, []⟩

def c6wPR : GitHubPR :=
  ⟨7, "My Ext: fix typo", "https://example.com/pull/7", some 5, cUser, []⟩

/-! ## Helper lemmas about dedupBySlug -/

theorem dedupBySlug_sub {p : GitHubPR × String} :
    ∀ (seen : List String) (l : List (GitHubPR × String)),
      p ∈ dedupBySlug seen l → p ∈ l := by
  intro seen l
  induction l generalizing seen with
  | nil => simp [dedupBySlug]
  | cons q rest ih =>
    by_cases hq : q.2 ∈ seen
    · intro h
      exact List.mem_cons_of_mem _ (ih seen (by simpa [dedupBySlug, hq] using h))
    · intro h
      rcases (by simpa [dedupBySlug, hq] using h :
          p = q ∨ p ∈ dedupBySlug (q.2 :: seen) rest) with h1 | h1
      · simp [h1]
      · exact List.mem_cons_of_mem _ (ih _ h1)

theorem mem_dedupBySlug {p : GitHubPR × String} :
    ∀ (seen : List String) (l : List (GitHubPR × String)),
      (p ∈ dedupBySlug seen l ↔
        p.2 ∉ seen ∧ l.find? (fun q => q.2 == p.2) = some p) := by
  intro seen l
  induction l generalizing seen with
  | nil => simp [dedupBySlug]
  | cons q rest ih =>
    by_cases hq : q.2 ∈ seen
    · cases hb : (q.2 == p.2) with
      | true =>
        have hpq : q.2 = p.2 := by simpa using hb
        constructor
        · intro h
          exact (((ih seen).mp (by simpa [dedupBySlug, hq] using h)).1 (hpq ▸ hq)).elim
        · intro h
          exact (h.1 (hpq ▸ hq)).elim
      | false =>
        have : p ∈ dedupBySlug seen (q :: rest) ↔ p ∈ dedupBySlug seen rest := by
          simp [dedupBySlug, hq]
        rw [this, List.find?_cons, hb]
        exact ih seen
    · cases hb : (q.2 == p.2) with
      | true =>
        have hpq : q.2 = p.2 := by simpa using hb
        rw [List.find?_cons, hb]
        constructor
        · intro h
          rcases (by simpa [dedupBySlug, hq] using h :
              p = q ∨ p ∈ dedupBySlug (q.2 :: seen) rest) with h1 | h1
          · exact ⟨fun hc => hq (h1 ▸ hpq ▸ hc), by rw [h1]⟩
          · exact absurd (show p.2 ∈ q.2 :: seen by simp [hpq])
              ((ih (q.2 :: seen)).mp h1).1
        · intro h
          have : p = q := by simpa using h.2.symm
          simp [dedupBySlug, hq, this]
      | false =>
        have hne : p.2 ≠ q.2 := fun hc => by simp [hc] at hb
        rw [List.find?_cons, hb]
        constructor
        · intro h
          rcases (by simpa [dedupBySlug, hq] using h :
              p = q ∨ p ∈ dedupBySlug (q.2 :: seen) rest) with h1 | h1
          · exact absurd (h1 ▸ rfl) hne
          · have h2 := (ih (q.2 :: seen)).mp h1
            exact ⟨fun hc => h2.1 (List.mem_cons_of_mem _ hc), h2.2⟩
        · intro h
          have : p ∈ dedupBySlug (q.2 :: seen) rest :=
            (ih (q.2 :: seen)).mpr ⟨by simp [hne, h.1], h.2⟩
          simp [dedupBySlug, hq, this]

theorem dedupBySlug_not_seen {p : GitHubPR × String} {seen : List String}
    {l : List (GitHubPR × String)} (h : p ∈ dedupBySlug seen l) : p.2 ∉ seen :=
  ((mem_dedupBySlug seen l).mp h).1

theorem dedupBySlug_slugs_nodup :
    ∀ (seen : List String) (l : List (GitHubPR × String)),
      ((dedupBySlug seen l).map Prod.snd).Nodup := by
  intro seen l
  induction l generalizing seen with
  | nil => simp [dedupBySlug]
  | cons q rest ih =>
    by_cases hq : q.2 ∈ seen
    · simpa [dedupBySlug, hq] using ih seen
    · have hnotin : q.2 ∉ (dedupBySlug (q.2 :: seen) rest).map Prod.snd := by
        intro hc
        rcases List.mem_map.mp hc with ⟨r, hr, hr2⟩
        exact dedupBySlug_not_seen hr (by simp [hr2])
      simpa [dedupBySlug, hq] using List.Nodup.cons hnotin (ih (q.2 :: seen))

theorem dedupBySlug_filter (s : String) :
    ∀ (seen : List String) (l : List (GitHubPR × String)),
      (dedupBySlug seen l).filter (fun q => q.2 == s) =
        if s ∈ seen then [] else
          match l.find? (fun q => q.2 == s) with
          | some q => [q]
          | none => [] := by
  intro seen l
  induction l generalizing seen with
  | nil => by_cases hs : s ∈ seen <;> simp [dedupBySlug, hs]
  | cons q rest ih =>
    by_cases hq : q.2 ∈ seen
    · cases hb : (q.2 == s) with
      | true =>
        have hqs : q.2 = s := by simpa using hb
        have hs : s ∈ seen := hqs ▸ hq
        simp only [dedupBySlug, if_pos hq, List.find?_cons, hb, ih seen, if_pos hs]
      | false =>
        simp only [dedupBySlug, if_pos hq, List.find?_cons, hb, ih seen]
    · cases hb : (q.2 == s) with
      | true =>
        have hqs : q.2 = s := by simpa using hb
        have hs : s ∉ seen := hqs ▸ hq
        have hrest : (dedupBySlug (q.2 :: seen) rest).filter (fun r => r.2 == s) = [] := by
          rw [ih (q.2 :: seen)]
          simp [hqs]
        simp [dedupBySlug, hq, List.filter_cons, hb, List.find?_cons, hrest, hs]
      | false =>
        have hne : s ≠ q.2 := fun hc => by simp [hc] at hb
        have hrest := ih (q.2 :: seen)
        simp only [dedupBySlug, if_neg hq, List.filter_cons, hb, List.find?_cons, hrest]
        simp [List.mem_cons, hne]

theorem dedupBySlug_append (B : List (GitHubPR × String)) :
    ∀ (seen : List String) (A : List (GitHubPR × String)),
      dedupBySlug seen (A ++ B) =
        dedupBySlug seen A
          ++ dedupBySlug (((dedupBySlug seen A).map Prod.snd).reverse ++ seen) B := by
  intro seen A
  induction A generalizing seen with
  | nil => simp [dedupBySlug]
  | cons q rest ih =>
    by_cases hq : q.2 ∈ seen
    · simpa [dedupBySlug, hq] using ih seen
    · have := ih (q.2 :: seen)
      simp [dedupBySlug, hq, this, List.append_assoc]


/-! ## Characterisation of the two passes -/

theorem pass1_spec (newD : String → Option Int) :
    ∀ (prs : List GitHubPR) (seen : List String),
      (pass1 newD prs seen).updateCandidates = dedupBySlug seen (titleEligible newD prs)
      ∧ (pass1 newD prs seen).removalCandidatePRs =
          prs.filter (fun pr => pr.merged_at.isSome && isRemovalPR pr)
      ∧ (pass1 newD prs seen).needsFileFallback = fallbackQueue prs
      ∧ (pass1 newD prs seen).seen =
          ((pass1 newD prs seen).updateCandidates.map Prod.snd).reverse ++ seen := by
  intro prs
  induction prs with
  | nil => intro seen; simp [pass1, titleEligible, fallbackQueue, dedupBySlug]
  | cons pr rest ih =>
    intro seen
    cases hm : pr.merged_at with
    | none =>
      obtain ⟨ih1, ih2, ih3, ih4⟩ := ih seen
      simp [pass1, titleEligible, titleStep, fallbackQueue, hm, List.filter_cons,
        List.filterMap_cons, ih1, ih2, ih3, ih4]
    | some t =>
      cases hr : isRemovalPR pr with
      | true =>
        obtain ⟨ih1, ih2, ih3, ih4⟩ := ih seen
        simp [pass1, titleEligible, titleStep, fallbackQueue, hm, hr, List.filter_cons,
          List.filterMap_cons, ih1, ih2, ih3, ih4]
      | false =>
        cases hp : parseExtensionSlugFromPR pr with
        | some slug =>
          by_cases he : slug = ""
          · obtain ⟨ih1, ih2, ih3, ih4⟩ := ih seen
            simp [pass1, titleEligible, titleStep, fallbackQueue, slugTruthy, hm, hr,
              hp, he, List.filter_cons, List.filterMap_cons, ih1, ih2, ih3, ih4]
          · cases hf : feedSkips newD slug t with
            | true =>
              obtain ⟨ih1, ih2, ih3, ih4⟩ := ih seen
              simp [pass1, titleEligible, titleStep, fallbackQueue, slugTruthy, hm, hr,
                hp, he, hf, List.filter_cons, List.filterMap_cons, ih1, ih2, ih3, ih4]
            | false =>
              by_cases hmem : slug ∈ seen
              · obtain ⟨ih1, ih2, ih3, ih4⟩ := ih seen
                simp [pass1, titleEligible, titleStep, fallbackQueue, slugTruthy, hm,
                  hr, hp, he, hf, hmem, List.filter_cons, List.filterMap_cons,
                  dedupBySlug, ih1, ih2, ih3, ih4]
              · obtain ⟨ih1, ih2, ih3, ih4⟩ := ih (slug :: seen)
                simp [pass1, titleEligible, titleStep, fallbackQueue, slugTruthy, hm,
                  hr, hp, he, hf, hmem, List.filter_cons, List.filterMap_cons,
                  dedupBySlug, ih1, ih2, ih3, ih4, List.append_assoc]
        | none =>
          obtain ⟨ih1, ih2, ih3, ih4⟩ := ih seen
          simp [pass1, titleEligible, titleStep, fallbackQueue, slugTruthy, hm, hr, hp,
            List.filter_cons, List.filterMap_cons, ih1, ih2, ih3, ih4]

theorem pass2_spec (newD : String → Option Int) (fileSlugOf : Nat → Option String) :
    ∀ (prs : List GitHubPR) (seen : List String),
      pass2 newD fileSlugOf prs seen =
        dedupBySlug seen (fallbackEligible newD fileSlugOf prs) := by
  intro prs
  induction prs with
  | nil => intro seen; simp [pass2, fallbackEligible, dedupBySlug]
  | cons pr rest ih =>
    intro seen
    cases hs : fileSlugOf pr.number with
    | none =>
      simp [pass2, fallbackEligible, fallbackStep, hs, List.filterMap_cons, ih seen]
    | some slug =>
      by_cases he : slug = ""
      · simp [pass2, fallbackEligible, fallbackStep, hs, he, List.filterMap_cons, ih seen]
      · cases hf : feedSkips newD slug (pr.merged_at.getD 0) with
        | true =>
          simp [pass2, fallbackEligible, fallbackStep, hs, he, hf,
            List.filterMap_cons, ih seen]
        | false =>
          by_cases hmem : slug ∈ seen
          · simp [pass2, fallbackEligible, fallbackStep, hs, he, hf, hmem,
              List.filterMap_cons, dedupBySlug, ih seen]
          · simp [pass2, fallbackEligible, fallbackStep, hs, he, hf, hmem,
              List.filterMap_cons, dedupBySlug, ih (slug :: seen)]

theorem updateCandidatesOf_eq (newD : String → Option Int) (fileSlugOf : Nat → Option String)
    (prs : List GitHubPR) :
    updateCandidatesOf newD fileSlugOf prs =
      dedupBySlug [] (eligiblePairs newD fileSlugOf prs) := by
  obtain ⟨h1, _, h3, h4⟩ := pass1_spec newD prs []
  rw [updateCandidatesOf]
  rw [eligiblePairs, dedupBySlug_append, h1, h3, h4, pass2_spec, h1]

theorem convert_fst (fileSlugOf : Nat → Option String) (pkgOf : String → Option PackageInfo)
    (rOf : Nat → List String) (prs : List GitHubPR) (newD : String → Option Int) :
    (convertPRsToStoreItems fileSlugOf pkgOf rOf prs newD).1 =
      (updateCandidatesOf newD fileSlugOf prs).map (buildUpdatedItem pkgOf) := rfl

theorem convert_snd (fileSlugOf : Nat → Option String) (pkgOf : String → Option PackageInfo)
    (rOf : Nat → List String) (prs : List GitHubPR) (newD : String → Option Int) :
    (convertPRsToStoreItems fileSlugOf pkgOf rOf prs newD).2 =
      processRemovals pkgOf rOf ((pass1 newD prs []).removalCandidatePRs) [] := rfl


/-! ## Removal processing invariants -/

theorem processRemovalSlugs_seen (pkgOf : String → Option PackageInfo) (pr : GitHubPR) :
    ∀ (slugs seen : List String),
      (processRemovalSlugs pkgOf pr slugs seen).2 =
        ((processRemovalSlugs pkgOf pr slugs seen).1.map
          (fun it => it.extensionSlug)).reverse ++ seen := by
  intro slugs
  induction slugs with
  | nil => intro seen; simp [processRemovalSlugs]
  | cons slug rest ih =>
    intro seen
    by_cases hs : slug ∈ seen
    · simp [processRemovalSlugs, hs, ih seen]
    · cases hp : pkgOf slug with
      | some p => simp [processRemovalSlugs, hs, hp, ih seen]
      | none =>
        simp [processRemovalSlugs, hs, hp, ih (slug :: seen), buildRemovedItem,
          List.append_assoc]

theorem processRemovalSlugs_items (pkgOf : String → Option PackageInfo) (pr : GitHubPR) :
    ∀ (slugs seen : List String),
      ∀ it ∈ (processRemovalSlugs pkgOf pr slugs seen).1,
        it = buildRemovedItem pr it.extensionSlug ∧ pkgOf it.extensionSlug = none ∧
          it.extensionSlug ∉ seen := by
  intro slugs
  induction slugs with
  | nil => intro seen it hit; simp [processRemovalSlugs] at hit
  | cons slug rest ih =>
    intro seen it hit
    by_cases hs : slug ∈ seen
    · exact ih seen it (by simpa [processRemovalSlugs, hs] using hit)
    · cases hp : pkgOf slug with
      | some p => exact ih seen it (by simpa [processRemovalSlugs, hs, hp] using hit)
      | none =>
        rcases (by simpa [processRemovalSlugs, hs, hp] using hit :
            it = buildRemovedItem pr slug ∨
              it ∈ (processRemovalSlugs pkgOf pr rest (slug :: seen)).1) with h1 | h1
        · subst h1
          exact ⟨by simp [buildRemovedItem], by simpa [buildRemovedItem] using hp,
            by simpa [buildRemovedItem] using hs⟩
        · obtain ⟨ha, hb, hc⟩ := ih (slug :: seen) it h1
          exact ⟨ha, hb, fun hx => hc (List.mem_cons_of_mem _ hx)⟩

theorem processRemovalSlugs_nodup (pkgOf : String → Option PackageInfo) (pr : GitHubPR) :
    ∀ (slugs seen : List String),
      ((processRemovalSlugs pkgOf pr slugs seen).1.map
        (fun it => it.extensionSlug)).Nodup := by
  intro slugs
  induction slugs with
  | nil => intro seen; simp [processRemovalSlugs]
  | cons slug rest ih =>
    intro seen
    by_cases hs : slug ∈ seen
    · simpa [processRemovalSlugs, hs] using ih seen
    · cases hp : pkgOf slug with
      | some p => simpa [processRemovalSlugs, hs, hp] using ih seen
      | none =>
        have hnotin : slug ∉ (processRemovalSlugs pkgOf pr rest (slug :: seen)).1.map
            (fun it => it.extensionSlug) := by
          intro hc
          rcases List.mem_map.mp hc with ⟨r, hr, hr2⟩
          exact (processRemovalSlugs_items pkgOf pr rest (slug :: seen) r hr).2.2
            (by simp [hr2])
        simpa [processRemovalSlugs, hs, hp, buildRemovedItem] using
          List.Nodup.cons hnotin (ih (slug :: seen))

theorem processRemovals_items (pkgOf : String → Option PackageInfo)
    (rOf : Nat → List String) :
    ∀ (prs : List GitHubPR) (seen : List String),
      ∀ it ∈ processRemovals pkgOf rOf prs seen,
        (∃ pr ∈ prs, it = buildRemovedItem pr it.extensionSlug) ∧
          pkgOf it.extensionSlug = none ∧ it.extensionSlug ∉ seen := by
  intro prs
  induction prs with
  | nil => intro seen it hit; simp [processRemovals] at hit
  | cons pr rest ih =>
    intro seen it hit
    rcases List.mem_append.mp (by simpa [processRemovals] using hit) with h1 | h1
    · obtain ⟨ha, hb, hc⟩ :=
        processRemovalSlugs_items pkgOf pr (rOf pr.number) seen it h1
      exact ⟨⟨pr, List.mem_cons_self pr rest, ha⟩, hb, hc⟩
    · obtain ⟨⟨q, hq, ha⟩, hb, hc⟩ :=
        ih (processRemovalSlugs pkgOf pr (rOf pr.number) seen).2 it h1
      refine ⟨⟨q, List.mem_cons_of_mem _ hq, ha⟩, hb, fun hx => hc ?_⟩
      rw [processRemovalSlugs_seen]
      exact List.mem_append_right _ hx

theorem processRemovals_nodup (pkgOf : String → Option PackageInfo)
    (rOf : Nat → List String) :
    ∀ (prs : List GitHubPR) (seen : List String),
      ((processRemovals pkgOf rOf prs seen).map (fun it => it.extensionSlug)).Nodup := by
  intro prs
  induction prs with
  | nil => intro seen; simp [processRemovals]
  | cons pr rest ih =>
    intro seen
    have hdisj :
        ((processRemovalSlugs pkgOf pr (rOf pr.number) seen).1.map
          (fun it => it.extensionSlug)).Disjoint
          ((processRemovals pkgOf rOf rest
            (processRemovalSlugs pkgOf pr (rOf pr.number) seen).2).map
            (fun it => it.extensionSlug)) := by
      intro x hx1 hx2
      rcases List.mem_map.mp hx2 with ⟨r, hr, hr2⟩
      have h2 := (processRemovals_items pkgOf rOf rest _ r hr).2.2
      rw [processRemovalSlugs_seen] at h2
      exact h2 (by rw [hr2]; exact List.mem_append_left _ (List.mem_reverse.mpr hx1))
    have := List.Nodup.append
      (processRemovalSlugs_nodup pkgOf pr (rOf pr.number) seen)
      (ih (processRemovalSlugs pkgOf pr (rOf pr.number) seen).2) hdisj
    simpa [processRemovals] using this

/-! ## Membership in the eligible sequences -/

theorem mem_titleEligible {newD : String → Option Int} {prs : List GitHubPR}
    {pr : GitHubPR} {s : String} (h : (pr, s) ∈ titleEligible newD prs) :
    pr ∈ prs ∧ ∃ t, pr.merged_at = some t ∧ isRemovalPR pr = false ∧
      parseExtensionSlugFromPR pr = some s ∧ feedSkips newD s t = false := by
  rcases List.mem_filterMap.mp h with ⟨q, hq, hstep⟩
  cases hm : q.merged_at with
  | none => rw [titleStep, hm] at hstep; cases hstep
  | some t =>
    cases hr : isRemovalPR q with
    | true => rw [titleStep, hm] at hstep; simp [hr] at hstep
    | false =>
      cases hp : parseExtensionSlugFromPR q with
      | none => rw [titleStep, hm] at hstep; simp [hr, hp] at hstep
      | some slug =>
        by_cases he : slug = ""
        · rw [titleStep, hm] at hstep; simp [hr, hp, he] at hstep
        · cases hf : feedSkips newD slug t with
          | true => rw [titleStep, hm] at hstep; simp [hr, hp, he, hf] at hstep
          | false =>
            rw [titleStep, hm] at hstep
            simp only [hr, hp, he, hf, Bool.false_eq_true, if_false, reduceIte,
              Option.some.injEq, Prod.mk.injEq] at hstep
            obtain ⟨h1, h2⟩ := hstep
            subst h1; subst h2
            exact ⟨hq, t, hm, hr, hp, hf⟩

theorem mem_fallbackEligible {newD : String → Option Int}
    {fileSlugOf : Nat → Option String} {prs : List GitHubPR}
    {pr : GitHubPR} {s : String} (h : (pr, s) ∈ fallbackEligible newD fileSlugOf prs) :
    pr ∈ prs ∧ fileSlugOf pr.number = some s ∧
      feedSkips newD s (pr.merged_at.getD 0) = false := by
  rcases List.mem_filterMap.mp h with ⟨q, hq, hstep⟩
  cases hs : fileSlugOf q.number with
  | none => rw [fallbackStep, hs] at hstep; cases hstep
  | some slug =>
    by_cases he : slug = ""
    · rw [fallbackStep, hs] at hstep; simp [he] at hstep
    · cases hf : feedSkips newD slug (q.merged_at.getD 0) with
      | true => rw [fallbackStep, hs] at hstep; simp [he, hf] at hstep
      | false =>
        rw [fallbackStep, hs] at hstep
        simp only [he, hf, Bool.false_eq_true, if_false, reduceIte,
          Option.some.injEq, Prod.mk.injEq] at hstep
        obtain ⟨h1, h2⟩ := hstep
        subst h1; subst h2
        exact ⟨hq, hs, hf⟩

/-! ## Grouping-map lemmas for the removal detector -/

theorem findGroup_addToGroup (slug : String) (f : GitHubPRFile) (s : String) :
    ∀ acc, findGroup s (addToGroup slug f acc) =
      if slug = s then some ((findGroup s acc).getD [] ++ [f]) else findGroup s acc := by
  intro acc
  induction acc with
  | nil => by_cases h : slug = s <;> simp [addToGroup, findGroup, h]
  | cons g rest ih =>
    obtain ⟨u, fs⟩ := g
    by_cases hu : u = slug
    · subst hu
      by_cases hs : u = s
      · subst hs; simp [addToGroup, findGroup]
      · simp [addToGroup, findGroup, hs]
    · by_cases hs : u = s
      · subst hs
        have hss : ¬ slug = u := fun h => hu h.symm
        simp [addToGroup, findGroup, hu, hss]
      · simp [addToGroup, findGroup, hu, hs, ih]

theorem optExtend_some (x : List GitHubPRFile) (l : List GitHubPRFile) :
    optExtend (some x) l = some (x ++ l) := by
  cases l <;> simp [optExtend]

theorem optExtend_cons (o : Option (List GitHubPRFile)) (f : GitHubPRFile)
    (l : List GitHubPRFile) : optExtend o (f :: l) = some (o.getD [] ++ f :: l) := by
  cases o <;> simp [optExtend]

theorem findGroup_fold (s : String) :
    ∀ (files : List GitHubPRFile) (acc : List (String × List GitHubPRFile)),
      findGroup s (files.foldl groupStep acc) =
        optExtend (findGroup s acc) (matchingFiles s files) := by
  intro files
  induction files with
  | nil =>
    intro acc
    cases h : findGroup s acc <;> simp [matchingFiles, optExtend, h]
  | cons f rest ih =>
    intro acc
    cases hp : pathSlug f.filename with
    | none =>
      have h1 : matchingFiles s (f :: rest) = matchingFiles s rest := by
        simp [matchingFiles, List.filter_cons, hp]
      have h2 : (f :: rest).foldl groupStep acc = rest.foldl groupStep acc := by
        simp [groupStep, hp]
      rw [h2, h1, ih acc]
    | some u =>
      by_cases hu : u = s
      · have hps : pathSlug f.filename = some s := by rw [hp, hu]
        have h1 : matchingFiles s (f :: rest) = f :: matchingFiles s rest := by
          simp [matchingFiles, List.filter_cons, hps]
        have h2 : (f :: rest).foldl groupStep acc = rest.foldl groupStep (addToGroup u f acc) := by
          simp [groupStep, hp]
        rw [h2, ih (addToGroup u f acc), h1, findGroup_addToGroup, if_pos hu,
          optExtend_some, optExtend_cons]
        simp
      · have hps : ¬ pathSlug f.filename = some s := by simp [hp, hu]
        have h1 : matchingFiles s (f :: rest) = matchingFiles s rest := by
          simp [matchingFiles, List.filter_cons, hps]
        have h2 : (f :: rest).foldl groupStep acc = rest.foldl groupStep (addToGroup u f acc) := by
          simp [groupStep, hp]
        rw [h2, ih (addToGroup u f acc), h1, findGroup_addToGroup, if_neg hu]

theorem findGroup_mem {s : String} {fs : List GitHubPRFile} :
    ∀ {acc}, findGroup s acc = some fs → (s, fs) ∈ acc := by
  intro acc
  induction acc with
  | nil => intro h; cases h
  | cons g rest ih =>
    obtain ⟨u, gs⟩ := g
    intro h
    by_cases hu : u = s
    · rw [show findGroup s ((u, gs) :: rest) = some gs by simp [findGroup, hu]] at h
      have hgs : gs = fs := by simpa using h
      exact List.mem_cons.mpr (Or.inl (by rw [hu, hgs]))
    · rw [show findGroup s ((u, gs) :: rest) = findGroup s rest by simp [findGroup, hu]] at h
      exact List.mem_cons_of_mem _ (ih h)

theorem keys_addToGroup {x slug : String} {f : GitHubPRFile} :
    ∀ acc, x ∈ (addToGroup slug f acc).map Prod.fst →
      x = slug ∨ x ∈ acc.map Prod.fst := by
  intro acc
  induction acc with
  | nil => intro h; simpa [addToGroup] using h
  | cons g rest ih =>
    obtain ⟨u, gs⟩ := g
    intro h
    by_cases hu : u = slug
    · subst hu
      rcases (by simpa [addToGroup] using h : x = u ∨ x ∈ rest.map Prod.fst) with h1 | h1
      · exact Or.inl h1
      · exact Or.inr (by simp [h1])
    · rcases (by simpa [addToGroup, hu] using h :
          x = u ∨ x ∈ (addToGroup slug f rest).map Prod.fst) with h1 | h1
      · exact Or.inr (by simp [h1])
      · rcases ih h1 with h2 | h2
        · exact Or.inl h2
        · exact Or.inr (by simp [h2])

theorem nodupKeys_addToGroup (slug : String) (f : GitHubPRFile) :
    ∀ acc, (acc.map Prod.fst).Nodup → ((addToGroup slug f acc).map Prod.fst).Nodup := by
  intro acc
  induction acc with
  | nil => intro _; simp [addToGroup]
  | cons g rest ih =>
    obtain ⟨u, gs⟩ := g
    intro h
    rw [List.map_cons] at h
    by_cases hu : u = slug
    · subst hu; simpa [addToGroup] using h
    · have h1 : u ∉ (addToGroup slug f rest).map Prod.fst := by
        intro hc
        rcases keys_addToGroup rest hc with h2 | h2
        · exact hu h2
        · exact (List.nodup_cons.mp h).1 h2
      have h2 := ih (List.nodup_cons.mp h).2
      simpa [addToGroup, hu] using List.Nodup.cons h1 h2

theorem nodupKeys_fold :
    ∀ (files : List GitHubPRFile) (acc : List (String × List GitHubPRFile)),
      (acc.map Prod.fst).Nodup → ((files.foldl groupStep acc).map Prod.fst).Nodup := by
  intro files
  induction files with
  | nil => intro acc h; simpa using h
  | cons f rest ih =>
    intro acc h
    cases hp : pathSlug f.filename with
    | none => simpa [groupStep, hp] using ih acc h
    | some u =>
      have := ih (addToGroup u f acc) (nodupKeys_addToGroup u f acc h)
      simpa [groupStep, hp] using this

theorem mem_findGroup {s : String} {fs : List GitHubPRFile} :
    ∀ {acc}, (acc.map Prod.fst).Nodup → (s, fs) ∈ acc → findGroup s acc = some fs := by
  intro acc
  induction acc with
  | nil => intro _ h; cases h
  | cons g rest ih =>
    obtain ⟨u, gs⟩ := g
    intro hnd h
    rcases List.mem_cons.mp h with h1 | h1
    · have h2 : u = s := (congrArg Prod.fst h1).symm
      have h3 : fs = gs := congrArg Prod.snd h1
      simp [findGroup, h2, h3]
    · by_cases hu : u = s
      · have hmem : u ∈ rest.map Prod.fst :=
          List.mem_map.mpr ⟨(s, fs), h1, by simp [hu]⟩
        exact absurd hmem (List.nodup_cons.mp (by simpa using hnd)).1
      · have h4 := ih (List.nodup_cons.mp (by simpa using hnd)).2 h1
        simp [findGroup, hu, h4]

/-! ## Changelog loop lemmas -/

theorem collectLatest_true (ls : List String) :
    collectLatest ls true = ls.takeWhile (fun l => !(strStartsWith l "## ")) := by
  induction ls with
  | nil => simp [collectLatest]
  | cons l rest ih =>
    cases hl : strStartsWith l "## " with
    | true => simp [collectLatest, hl, List.takeWhile_cons]
    | false => simp [collectLatest, hl, List.takeWhile_cons, ih]

theorem collectLatest_false (ls : List String) :
    collectLatest ls false =
      match ls.dropWhile (fun l => !(strStartsWith l "## ")) with
      | [] => []
      | h :: rest => h :: rest.takeWhile (fun l => !(strStartsWith l "## ")) := by
  induction ls with
  | nil => simp [collectLatest]
  | cons l rest ih =>
    cases hl : strStartsWith l "## " with
    | true => simp [collectLatest, hl, List.dropWhile_cons, collectLatest_true]
    | false => simp [collectLatest, hl, List.dropWhile_cons, ih]

theorem dropWhile_nil_of_all {p : String → Bool} :
    ∀ ls : List String, ls.all p = true → ls.dropWhile p = [] := by
  intro ls h
  induction ls with
  | nil => rfl
  | cons a rest ih =>
    rw [List.all_cons, Bool.and_eq_true] at h
    simp [List.dropWhile_cons, h.1, ih h.2]

/-! ## The claims -/

/-- C1 counterexample: with record 1 first in input order resolving to slug
x only through the changed-file-path fallback and record 2 second in input
order resolving to x from its title, the single Updated event for x is
built from record 2 (id pr-2), not from the record that appears first in
the input list — the title pass claims the slug before the fallback pass
runs, refuting the claim as stated. -/
theorem claim1_counterexample :
    ((convertPRsToStoreItems c1FileSlugOf noPkg noRemoved [c1FallbackPR, c1TitlePR]
        noFeed).1.map (fun it => it.id)) = ["pr-2"]
    ∧ parseExtensionSlugFromPR c1FallbackPR = none
    ∧ c1FileSlugOf c1FallbackPR.number = some "x"
    ∧ parseExtensionSlugFromPR c1TitlePR = some "x"
    ∧ c1FallbackPR.merged_at.isSome ∧ c1TitlePR.merged_at.isSome
    ∧ isRemovalPR c1FallbackPR = false ∧ isRemovalPR c1TitlePR = false := by
  decide

/-- C1 (amended): when two or more merged records resolve to the same slug,
exactly one Updated event is emitted for that slug, and it is built from
the first record in PROCESSING order — all title/label-resolved records, in
input order, are processed before all fallback-resolved records, in input
order — formalised as the first pair for that slug in eligiblePairs. -/
theorem claim1_first_in_processing_order_wins (fileSlugOf : Nat → Option String)
    (pkgOf : String → Option PackageInfo) (rOf : Nat → List String)
    (newD : String → Option Int) (prs : List GitHubPR) (pr : GitHubPR) (s : String)
    (hfirst : (eligiblePairs newD fileSlugOf prs).find? (fun q => q.2 == s) = some (pr, s)) :
    (convertPRsToStoreItems fileSlugOf pkgOf rOf prs newD).1.filter
        (fun it => it.extensionSlug == s) = [buildUpdatedItem pkgOf (pr, s)] := by
  rw [convert_fst, updateCandidatesOf_eq, List.filter_map]
  have hcomp : ((fun it => it.extensionSlug == s) ∘ buildUpdatedItem pkgOf)
      = fun q => q.2 == s := by
    funext c; rfl
  rw [hcomp, dedupBySlug_filter]
  simp [hfirst]

/-- C1 witness for the amended theorem at a concrete input. -/
theorem claim1_witness :
    (convertPRsToStoreItems noFileSlug noPkg noRemoved [c1TitlePR] noFeed).1.filter
        (fun it => it.extensionSlug == "x") = [buildUpdatedItem noPkg (c1TitlePR, "x")] :=
  claim1_first_in_processing_order_wins noFileSlug noPkg noRemoved noFeed [c1TitlePR]
    c1TitlePR "x" (by decide)

/-- Slug uniqueness under the SERIALIZED removal schedule embodied by
convertPRsToStoreItems.  The updated half is schedule-independent in the
source (the candidate loops run synchronously after their joint awaits);
the removed half holds only when no two removal record-tasks overlap,
because removedSeen is checked before an await and updated after it. -/
theorem serialized_slug_uniqueness (fileSlugOf : Nat → Option String)
    (pkgOf : String → Option PackageInfo) (rOf : Nat → List String)
    (prs : List GitHubPR) (newD : String → Option Int) :
    ((convertPRsToStoreItems fileSlugOf pkgOf rOf prs newD).1.map
        (fun it => it.extensionSlug)).Nodup
    ∧ ((convertPRsToStoreItems fileSlugOf pkgOf rOf prs newD).2.map
        (fun it => it.extensionSlug)).Nodup := by
  constructor
  · rw [convert_fst, updateCandidatesOf_eq, List.map_map]
    have hcomp : ((fun it => it.extensionSlug) ∘ buildUpdatedItem pkgOf) = Prod.snd := by
      funext c; rfl
    rw [hcomp]
    exact dedupBySlug_slugs_nodup [] _
  · rw [convert_snd]
    exact processRemovals_nodup pkgOf rOf _ []

/-- C2 is refuted by the code under a realizable event-loop schedule: the
removal tasks of the source run concurrently and check removedSeen BEFORE
awaiting fetchExtensionPackageInfo, adding the slug only after the await.
With two merged removal records whose file lists both fully delete slug x
and a 404 metadata lookup, the schedule in which both tasks pass the seen
check before either package fetch resolves (quanta 0, 1, 0, 1) emits two
Removed events for x — the removed-slug uniqueness the spec states (and
the serialized model enforces, last conjunct) is not enforced by the
code. -/
theorem claim2_removed_duplicate_race :
    ((runRemovalSchedule noPkg c2Removed [c2RemovalPR1, c2RemovalPR2] [0, 1, 0, 1]).map
        (fun it => it.extensionSlug)) = ["x", "x"]
    ∧ ¬ ((runRemovalSchedule noPkg c2Removed [c2RemovalPR1, c2RemovalPR2]
          [0, 1, 0, 1]).map (fun it => it.extensionSlug)).Nodup
    ∧ ((runRemovalSchedule noPkg c2Removed [c2RemovalPR1, c2RemovalPR2]
          [0, 0, 1, 1]).map (fun it => it.extensionSlug)) = ["x"]
    ∧ ((processRemovals noPkg c2Removed [c2RemovalPR1, c2RemovalPR2] []).map
        (fun it => it.extensionSlug)) = ["x"] := by
  exact ⟨by decide, by decide, by decide, by decide⟩

/-- C3: for a record resolving to slug s when the new-items feed has a
publish date T for s: a merge time at or before T emits no Updated event
from that record (the pair never reaches the candidate list); a merge time
after T emits the Updated event, provided the record is not deduplicated —
formalised as its pair being the first for s among the eligible pairs. -/
theorem claim3_feed_date_gate (fileSlugOf : Nat → Option String)
    (pkgOf : String → Option PackageInfo) (rOf : Nat → List String)
    (newD : String → Option Int) (prs : List GitHubPR) (pr : GitHubPR) (s : String)
    (t T : Int) (_hmem : pr ∈ prs) (hm : pr.merged_at = some t) (hT : newD s = some T)
    (_hres : parseExtensionSlugFromPR pr = some s ∨ fileSlugOf pr.number = some s) :
    ((convertPRsToStoreItems fileSlugOf pkgOf rOf prs newD).1 =
        (updateCandidatesOf newD fileSlugOf prs).map (buildUpdatedItem pkgOf))
    ∧ (t ≤ T → (pr, s) ∉ updateCandidatesOf newD fileSlugOf prs)
    ∧ (T < t →
        (eligiblePairs newD fileSlugOf prs).find? (fun q => q.2 == s) = some (pr, s) →
        (pr, s) ∈ updateCandidatesOf newD fileSlugOf prs
        ∧ buildUpdatedItem pkgOf (pr, s) ∈
            (convertPRsToStoreItems fileSlugOf pkgOf rOf prs newD).1) := by
  refine ⟨convert_fst fileSlugOf pkgOf rOf prs newD, ?_, ?_⟩
  · intro hle hin
    rw [updateCandidatesOf_eq] at hin
    have hE := dedupBySlug_sub [] _ hin
    rcases List.mem_append.mp hE with h1 | h1
    · obtain ⟨_, t', hm', _, _, hf'⟩ := mem_titleEligible h1
      rw [hm] at hm'
      have ht' : t' = t := by simpa using hm'.symm
      rw [ht'] at hf'
      rw [show feedSkips newD s t = true by simp [feedSkips, hT, hle]] at hf'
      cases hf'
    · obtain ⟨_, _, hf'⟩ := mem_fallbackEligible h1
      rw [hm] at hf'
      rw [show feedSkips newD s ((some t).getD 0) = true by
        simp [feedSkips, hT, hle]] at hf'
      cases hf'
  · intro _ hfind
    have h1 : (pr, s) ∈ dedupBySlug [] (eligiblePairs newD fileSlugOf prs) :=
      (mem_dedupBySlug [] _).mpr ⟨by simp, hfind⟩
    rw [← updateCandidatesOf_eq] at h1
    refine ⟨h1, ?_⟩
    rw [convert_fst]
    exact List.mem_map_of_mem _ h1

/-- C3 witness: a record for slug x merged at 100 with feed date 150 claims
no update candidacy. -/
theorem claim3_witness :
    (c3PR, "x") ∉ updateCandidatesOf feedX150 noFileSlug [c3PR] := by
  have h := claim3_feed_date_gate noFileSlug noPkg noRemoved feedX150 [c3PR] c3PR "x"
    100 150 (by decide) (by decide) (by decide) (Or.inl (by decide))
  exact h.2.1 (by decide)

/-- C4: every Removed event carries the synthesized placeholder summary,
the author login, avatar and URL of its removal record, the implied default
platform list and no category, version or icon data from metadata, and its
slug failed the metadata lookup; a candidate slug with non-null metadata is
discarded: no Removed event ever carries it.  Per the data model of the
spec the platforms field always holds the single implied default, so
carrying no platform data means exactly the constant macOS default. -/
theorem claim4_removed_event_shape (fileSlugOf : Nat → Option String)
    (pkgOf : String → Option PackageInfo) (rOf : Nat → List String)
    (prs : List GitHubPR) (newD : String → Option Int) :
    (∀ it ∈ (convertPRsToStoreItems fileSlugOf pkgOf rOf prs newD).2,
        it.summary = "This extension has been removed from the Raycast Store."
        ∧ it.platforms = some ["macOS"] ∧ it.categories = none ∧ it.version = none
        ∧ it.extensionIcon = none ∧ pkgOf it.extensionSlug = none
        ∧ ∃ pr ∈ prs, pr.merged_at.isSome ∧ isRemovalPR pr = true
            ∧ it.authorName = pr.user.login ∧ it.image = pr.user.avatar_url
            ∧ it.authorUrl = pr.user.html_url ∧ it.url = pr.html_url)
    ∧ (∀ sl : String, pkgOf sl ≠ none →
        ∀ it ∈ (convertPRsToStoreItems fileSlugOf pkgOf rOf prs newD).2,
          it.extensionSlug ≠ sl) := by
  constructor
  · intro it hit
    rw [convert_snd] at hit
    obtain ⟨⟨pr, hpr, heq⟩, hpkg, _⟩ := processRemovals_items pkgOf rOf _ [] it hit
    obtain ⟨_, h2, _, _⟩ := pass1_spec newD prs []
    rw [h2] at hpr
    obtain ⟨hprs, hcond⟩ := List.mem_filter.mp hpr
    rw [Bool.and_eq_true] at hcond
    refine ⟨by rw [heq]; rfl, by rw [heq]; rfl, by rw [heq]; rfl, by rw [heq]; rfl,
      by rw [heq]; rfl, hpkg, pr, hprs, hcond.1, hcond.2, by rw [heq]; rfl,
      by rw [heq]; rfl, by rw [heq]; rfl, by rw [heq]; rfl⟩
  · intro sl hsl it hit hc
    rw [convert_snd] at hit
    obtain ⟨_, hpkg, _⟩ := processRemovals_items pkgOf rOf _ [] it hit
    exact hsl (hc ▸ hpkg)

/-- C4 witness: a removal record with slugs gone-ext (metadata 404) and
present-ext (metadata found) emits the placeholder event for gone-ext and
nothing carrying present-ext. -/
theorem claim4_witness :
    (buildRemovedItem c4RemovalPR "gone-ext").summary =
      "This extension has been removed from the Raycast Store."
    ∧ (buildRemovedItem c4RemovalPR "gone-ext").extensionSlug ≠ "present-ext" := by
  have h := claim4_removed_event_shape noFileSlug c4Pkg c4Removed [c4RemovalPR] noFeed
  have hmem : buildRemovedItem c4RemovalPR "gone-ext" ∈
      (convertPRsToStoreItems noFileSlug c4Pkg c4Removed [c4RemovalPR] noFeed).2 := by
    decide
  exact ⟨(h.1 _ hmem).1, h.2 "present-ext" (by decide) _ hmem⟩

/-- C5: a slug is reported by the removal detector exactly when some
changed file lies under its directory and every changed file under its
directory has deletion status; in particular one non-deleted file under the
directory suppresses the slug. -/
theorem claim5_all_deleted_iff (files : List GitHubPRFile) (s : String) :
    (s ∈ removedSlugsFromFiles files ↔
      (∃ f ∈ files, pathSlug f.filename = some s)
        ∧ ∀ f ∈ files, pathSlug f.filename = some s → f.status = "removed")
    ∧ (∀ f ∈ files, pathSlug f.filename = some s → f.status ≠ "removed" →
        s ∉ fetchRemovedSlugsFromPR (FetchOutcome.ok files)) := by
  have hfind : findGroup s (groupFilesBySlug files) =
      optExtend none (matchingFiles s files) := findGroup_fold s files []
  have hiff : s ∈ removedSlugsFromFiles files ↔
      (∃ f ∈ files, pathSlug f.filename = some s)
        ∧ ∀ f ∈ files, pathSlug f.filename = some s → f.status = "removed" := by
    constructor
    · intro h
      rcases List.mem_filterMap.mp h with ⟨g, hg, hsome⟩
      by_cases hcond : g.2 ≠ [] ∧ ∀ f ∈ g.2, f.status = "removed"
      · rw [if_pos hcond] at hsome
        have hg1 : g.1 = s := by simpa using hsome
        have hga : (s, g.2) ∈ groupFilesBySlug files := by
          rw [← hg1]; exact hg
        have hfg : findGroup s (groupFilesBySlug files) = some g.2 :=
          mem_findGroup (nodupKeys_fold files [] (by simp)) hga
        rw [hfind] at hfg
        cases hm : matchingFiles s files with
        | nil => rw [hm] at hfg; cases hfg
        | cons f0 mrest =>
          rw [hm, optExtend_cons] at hfg
          have hg2 : g.2 = f0 :: mrest := by simpa using hfg.symm
          have hsub : ∀ f ∈ g.2, f ∈ files ∧ pathSlug f.filename = some s := by
            intro f hf
            rw [hg2, ← hm] at hf
            have := List.mem_filter.mp hf
            exact ⟨this.1, by simpa using this.2⟩
          have hf0 : f0 ∈ g.2 := by rw [hg2]; exact List.mem_cons_self _ _
          exact ⟨⟨f0, (hsub f0 hf0).1, (hsub f0 hf0).2⟩,
            fun f hf hp => hcond.2 f (by
              rw [hg2, ← hm]
              exact List.mem_filter.mpr ⟨hf, by simpa using hp⟩)⟩
      · rw [if_neg hcond] at hsome
        cases hsome
    · rintro ⟨⟨f0, hf0, hp0⟩, hall⟩
      have hf0m : f0 ∈ matchingFiles s files :=
        List.mem_filter.mpr ⟨hf0, by simpa using hp0⟩
      cases hm : matchingFiles s files with
      | nil => rw [hm] at hf0m; cases hf0m
      | cons g0 mrest =>
        have hfg : findGroup s (groupFilesBySlug files) = some (g0 :: mrest) := by
          rw [hfind, hm, optExtend_cons]; rfl
        have hmemg : (s, g0 :: mrest) ∈ groupFilesBySlug files := findGroup_mem hfg
        have hcond : (g0 :: mrest) ≠ [] ∧ ∀ f ∈ g0 :: mrest, f.status = "removed" := by
          refine ⟨by simp, fun f hf => ?_⟩
          rw [← hm] at hf
          have := List.mem_filter.mp hf
          exact hall f this.1 (by simpa using this.2)
        exact List.mem_filterMap.mpr ⟨(s, g0 :: mrest), hmemg, by rw [if_pos hcond]⟩
  refine ⟨hiff, ?_⟩
  intro f hf hp hstat hmem
  exact hstat ((hiff.mp hmem).2 f hf hp)

/-- C5 witness: a modified (non-deleted) file under the foo directory keeps
foo out of the removal report. -/
theorem claim5_witness :
    "foo" ∉ fetchRemovedSlugsFromPR (FetchOutcome.ok [c5File]) := by
  have h := claim5_all_deleted_iff [c5File] "foo"
  exact h.2 c5File (by decide) (by decide) (by decide)

/-- C6 counterexample: the title colon prefix Testflight is not in the
conventional-commit verb list, yet the code rejects it (the regex is
anchored only at the start, so the verb test matches the test prefix of
testflight) and resolution returns none instead of the slug testflight the
claim requires. -/
theorem claim6_counterexample :
    parseExtensionSlugFromPR c6PR = none
    ∧ colonName c6PR.title = some "Testflight"
    ∧ conventionalVerbs.all (fun v => v != "testflight") = true
    ∧ normalizeSlug "Testflight" = "testflight" := by
  decide

/-- C6 (amended): with no slug-bearing label and a colon-prefix match,
heuristic (2) yields the normalised prefix exactly when the trimmed prefix
does not BEGIN with a conventional-commit verb (case-insensitive); when it
does, resolution falls through to the bracket pattern (or none). -/
theorem claim6_verb_rejection (pr : GitHubPR) (raw : String)
    (hl : labelSlug pr.labels = none) (hc : colonName pr.title = some raw) :
    (startsWithVerb (jsTrim raw) = false →
        parseExtensionSlugFromPR pr = some (normalizeSlug raw))
    ∧ (startsWithVerb (jsTrim raw) = true →
        parseExtensionSlugFromPR pr = bracketName pr.title) := by
  constructor <;> intro hv <;> simp [parseExtensionSlugFromPR, hl, hc, hv]

/-- C6 witness: a non-verb prefix resolves to its normalised slug. -/
theorem claim6_witness :
    parseExtensionSlugFromPR c6wPR = some (normalizeSlug "My Ext") :=
  (claim6_verb_rejection c6wPR "My Ext" (by decide) (by decide)).1 (by decide)

/-- C7: checkRefreshAllowed returns the formatted countdown while the
persisted reset time lies ahead, otherwise the cooldown countdown while a
recorded fetch is less than five minutes old, otherwise null; the message
uses rounded-up seconds below one minute and rounded-up minutes above; the
induced storage transformer is the identity (the source only reads); and
ten seconds after a fetch with no limit the message is five minutes. -/
theorem claim7_refresh_gate (st : RefreshState) (now : Int) :
    (∀ r, st.rateLimitReset = some r → r ≠ 0 → now < r →
        checkRefreshAllowed st now = some (formatTimeRemaining (r - now)))
    ∧ ((∀ r, st.rateLimitReset = some r → r = 0 ∨ r ≤ now) →
        (∀ lf, st.lastFetch = some lf → 0 < lf → now - lf < MIN_REFRESH_INTERVAL_MS →
            checkRefreshAllowed st now =
              some (formatTimeRemaining (MIN_REFRESH_INTERVAL_MS - (now - lf))))
        ∧ (st.lastFetch.getD 0 ≤ 0 ∨ MIN_REFRESH_INTERVAL_MS ≤ now - st.lastFetch.getD 0 →
            checkRefreshAllowed st now = none))
    ∧ (checkRefreshAllowedST st now).2 = st
    ∧ formatTimeRemaining 59000 = "Try again in 59 seconds"
    ∧ formatTimeRemaining 60000 = "Try again in 1 minute"
    ∧ formatTimeRemaining 290000 = "Try again in 5 minutes"
    ∧ checkRefreshAllowed ⟨some 1000000, none⟩ 1010000 = some "Try again in 5 minutes" := by
  refine ⟨?_, ?_, rfl, by decide, by decide, by decide, by decide⟩
  · intro r hr h0 hlt
    simp [checkRefreshAllowed, hr, h0, hlt]
  · intro hnl
    have hnolimit : ∀ r, st.rateLimitReset = some r → ¬(r ≠ 0 ∧ now < r) := by
      intro r hr hh
      obtain ⟨h1, h2⟩ := hh
      rcases hnl r hr with h | h
      · exact h1 h
      · exact absurd h2 (not_lt.mpr h)
    constructor
    · intro lf hlf hpos hfast
      cases hr : st.rateLimitReset with
      | none => simp [checkRefreshAllowed, hr, hlf, hpos, hfast]
      | some r => simp [checkRefreshAllowed, hr, hlf, hpos, hfast, hnolimit r hr]
    · intro hslow
      cases hlf : st.lastFetch with
      | none =>
        cases hr : st.rateLimitReset with
        | none => simp [checkRefreshAllowed, hr, hlf]
        | some r => simp [checkRefreshAllowed, hr, hlf, hnolimit r hr]
      | some lf =>
        rw [hlf] at hslow
        have hcond : ¬(lf > 0 ∧ now - lf < MIN_REFRESH_INTERVAL_MS) := by
          intro hh
          rcases hslow with h | h
          · exact absurd hh.1 (not_lt.mpr (by simpa using h))
          · exact absurd hh.2 (not_lt.mpr (by simpa using h))
        cases hr : st.rateLimitReset with
        | none => simp [checkRefreshAllowed, hr, hlf, hcond]
        | some r => simp [checkRefreshAllowed, hr, hlf, hcond, hnolimit r hr]

/-- C7 witness: an active rate limit with three seconds left yields the
countdown message without touching the state. -/
theorem claim7_witness :
    checkRefreshAllowed ⟨none, some 5000⟩ 1000 = some (formatTimeRemaining 4000) := by
  have h := claim7_refresh_gate ⟨none, some 5000⟩ 1000
  exact h.1 5000 rfl (by decide) (by decide)

/-- C8: every modelled failure outcome (non-success response, transport
exception, parse exception) makes the metadata fetch and the file-based
slug fetch return none and the removed-slug fetch return the empty list;
the functions are total, so no exception escapes. -/
theorem claim8_degrades_to_null :
    (∀ slug : String,
        fetchExtensionPackageInfo slug FetchOutcome.notOk = none
        ∧ fetchExtensionPackageInfo slug FetchOutcome.transportError = none
        ∧ fetchExtensionPackageInfo slug FetchOutcome.parseError = none)
    ∧ (fetchExtensionSlugFromPRFiles FetchOutcome.notOk = none
        ∧ fetchExtensionSlugFromPRFiles FetchOutcome.transportError = none
        ∧ fetchExtensionSlugFromPRFiles FetchOutcome.parseError = none)
    ∧ (fetchRemovedSlugsFromPR FetchOutcome.notOk = []
        ∧ fetchRemovedSlugsFromPR FetchOutcome.transportError = []
        ∧ fetchRemovedSlugsFromPR FetchOutcome.parseError = []) :=
  ⟨fun _ => ⟨rfl, rfl, rfl⟩, ⟨rfl, rfl, rfl⟩, ⟨rfl, rfl, rfl⟩⟩

/-- C9: extractLatestChanges equals the section described by the spec (from
the first heading line up to but not including the next, trimmed), returns
the v2 block on the two-section example, and returns the empty string when
no heading line exists. -/
theorem claim9_latest_section :
    (∀ doc : String, extractLatestChanges doc = specLatestSection doc)
    ∧ extractLatestChanges "intro\n## v2\nfix A\n## v1\nfix B" = "## v2\nfix A"
    ∧ ∀ doc : String,
        ((splitChar '\n' doc).all (fun l => !(strStartsWith l "## "))) = true →
        extractLatestChanges doc = "" := by
  refine ⟨?_, by decide, ?_⟩
  · intro doc
    rw [extractLatestChanges, specLatestSection, collectLatest_false]
    cases hd : (splitChar '\n' doc).dropWhile (fun l => !(strStartsWith l "## ")) with
    | nil => rfl
    | cons h rest => rfl
  · intro doc hall
    rw [extractLatestChanges, collectLatest_false, dropWhile_nil_of_all _ hall]
    rfl

/-- C9 witness: a heading-free document yields the empty string. -/
theorem claim9_witness : extractLatestChanges "plain notes" = "" :=
  claim9_latest_section.2.2 "plain notes" (by decide)

/-- C10: feed-date suppression does not claim the slug: the seen set after
the title pass holds exactly the slugs of the emitted candidates, and for
any pair of records for the same slug where the earlier is merged at or
before the feed date and the later after it, the later record alone emits
the Updated event. -/
theorem claim10_suppressed_record_claims_nothing (fileSlugOf : Nat → Option String)
    (pkgOf : String → Option PackageInfo) (rOf : Nat → List String)
    (newD : String → Option Int) :
    (∀ (prs : List GitHubPR) (x : String),
        x ∈ (pass1 newD prs []).seen ↔
          x ∈ (pass1 newD prs []).updateCandidates.map Prod.snd)
    ∧ (∀ (r1 r2 : GitHubPR) (s : String) (T t1 t2 : Int),
        s ≠ "" →
        parseExtensionSlugFromPR r1 = some s →
        parseExtensionSlugFromPR r2 = some s →
        isRemovalPR r1 = false → isRemovalPR r2 = false →
        r1.merged_at = some t1 → r2.merged_at = some t2 →
        newD s = some T → t1 ≤ T → T < t2 →
        (convertPRsToStoreItems fileSlugOf pkgOf rOf [r1, r2] newD).1 =
          [buildUpdatedItem pkgOf (r2, s)]) := by
  constructor
  · intro prs x
    obtain ⟨_, _, _, h4⟩ := pass1_spec newD prs []
    rw [h4]
    simp
  · intro r1 r2 s T t1 t2 hne hp1 hp2 hr1 hr2 hm1 hm2 hT hle hlt
    have hf1 : feedSkips newD s t1 = true := by
      simp only [feedSkips, hT, decide_eq_true_eq]
      exact hle
    have hf2 : feedSkips newD s t2 = false := by
      simp only [feedSkips, hT, decide_eq_false_iff_not]
      exact not_le.mpr hlt
    rw [convert_fst, updateCandidatesOf_eq]
    have hTE : titleEligible newD [r1, r2] = [(r2, s)] := by
      simp [titleEligible, titleStep, hm1, hm2, hr1, hr2, hp1, hp2, hne, hf1, hf2,
        List.filterMap_cons]
    have hFQ : fallbackQueue [r1, r2] = [] := by
      simp [fallbackQueue, slugTruthy, List.filter_cons, hm1, hm2, hr1, hr2,
        hp1, hp2, hne]
    simp [eligiblePairs, hTE, hFQ, fallbackEligible, dedupBySlug]

/-- C10 witness: records at merge times 100 and 200 for slug x with feed
date 150 — the suppressed first record does not block the second. -/
theorem claim10_witness :
    (convertPRsToStoreItems noFileSlug noPkg noRemoved [c10Early, c10Late] feedX150).1 =
      [buildUpdatedItem noPkg (c10Late, "x")] := by
  have h := claim10_suppressed_record_claims_nothing noFileSlug noPkg noRemoved feedX150
  exact h.2 c10Early c10Late "x" 150 100 200 (by decide) (by decide) (by decide)
    (by decide) (by decide) (by decide) (by decide) (by decide) (by decide) (by decide)

end StoreUpdates
